import Mathlib

/-!
Verification of the SMS-Coastal staged-simulation orchestrator
(`m_sim_manager.py`, `m_sim_operations.py`, `m_supp_mohid.py`).

Shallow embedding conventions:
* A `datetime` is modelled as an integer number of seconds (`ℤ`);
  `timedelta(days = d)` is `86400 * d` and `timedelta(hours = h)` is
  `3600 * h`.  In the concrete examples below, `0` stands for
  2024-06-10T00:00, so `-432000` is 2024-06-05 and `86400` is 2024-06-11.
* A JSON value that should be an integer day count is modelled by `JVal`,
  which is either a Python `int` or some other (non-integer) JSON value,
  mirroring the `isinstance(deltad, int)` check in `SimOps.chcksim`.
* Fallible code paths return `Except`; an unhandled Python exception is a
  distinguished error value (`PyExc`).
-/

namespace SMSCoastal

/-- A JSON entry of the `hindcast`/`forecast` arrays: either a Python
integer or some non-integer JSON value (string, float, ...). -/
inductive JVal where
  | int (z : ℤ)
  | nonint
  deriving DecidableEq

/-- The check `isinstance(deltad, int) and deltad >= 1` performed on each
hindcast/forecast entry in `SimOps.chcksim` (a stage range must be at
least one day). -/
def entryValid : JVal → Bool
  | .int z => 1 ≤ z
  | .nonint => false

/-- Integer value of a `JVal` (0 for non-integers; only used on lists in
which every entry has already been checked by `entryValid`). -/
def jval : JVal → ℤ
  | .int z => z
  | .nonint => 0

/-- The hindcast boundary loop of `SimOps.chcksim`: for each `deltad` in
the (already reversed) hindcast list, accumulate `sumd += deltad` and
append `opdate - timedelta(sumd)`.  Dates in seconds, so one day is
86400. -/
def backBounds (opdate : ℤ) : List ℤ → ℤ → List ℤ
  | [], _ => []
  | d :: ds, sumd => (opdate - 86400 * (sumd + d)) :: backBounds opdate ds (sumd + d)

/-- The forecast boundary loop of `SimOps.chcksim`: accumulate
`sumd += deltad` and append `opdate + timedelta(sumd)`. -/
def fwdBounds (opdate : ℤ) : List ℤ → ℤ → List ℤ
  | [], _ => []
  | d :: ds, sumd => (opdate + 86400 * (sumd + d)) :: fwdBounds opdate ds (sumd + d)

/-- The full `simdates` boundary list of `SimOps.chcksim`: the hindcast
boundaries are built from the reversed hindcast list, then reversed into
ascending order, `opdate` is appended, and the forecast boundaries
follow. -/
def simBounds (opdate : ℤ) (hct fct : List ℤ) : List ℤ :=
  (backBounds opdate hct.reverse 0).reverse ++ opdate :: fwdBounds opdate fct 0

/-- `self.ini = simdates[:-1]` of `SimOps.chcksim`. -/
def stageIni (opdate : ℤ) (hct fct : List ℤ) : List ℤ :=
  (simBounds opdate hct fct).dropLast

/-- `self.fin = simdates[1:]` of `SimOps.chcksim`. -/
def stageFin (opdate : ℤ) (hct fct : List ℤ) : List ℤ :=
  (simBounds opdate hct fct).tail

/-- Error exits of `SimOps.chcksim` (each corresponds to a
`print(self.pterr, ...)` followed by `return 1`). -/
inductive ChkErr where
  | dirNotFound
  | invalidOpdate
  | nullRange
  | badHindcast
  | badForecast
  | badDomains
  deriving DecidableEq

/-- The stage-planning portion of `SimOps.chcksim` (lines 62-113 of
`m_sim_operations.py`).  The directory checks on `outdir`/`generaldata`
and the `opdate > datetime.today()` check are filesystem/clock effects,
abstracted into the booleans `dirsOk` and `opdateOk`; everything after
them is modelled exactly: both ranges empty is the "null simulation
range" error, the start-time offset is added to `opdate`, and each
hindcast/forecast entry must be a Python `int` that is at least 1 (the
hindcast list is scanned before the forecast list). -/
def chcksimPlan (dirsOk opdateOk : Bool) (opdate0 startime : ℤ)
    (hct fct : List JVal) : Except ChkErr (List ℤ × List ℤ) :=
  if dirsOk = false then .error .dirNotFound
  else if opdateOk = false then .error .invalidOpdate
  else if hct.isEmpty && fct.isEmpty then .error .nullRange
  else
    let opdate := opdate0 + 3600 * startime
    if ¬ hct.all entryValid then .error .badHindcast
    else if ¬ fct.all entryValid then .error .badForecast
    else .ok (stageIni opdate (hct.map jval) (fct.map jval),
              stageFin opdate (hct.map jval) (fct.map jval))

lemma backBounds_length (opdate : ℤ) (l : List ℤ) (s : ℤ) :
    (backBounds opdate l s).length = l.length := by
  induction l generalizing s with
  | nil => rfl
  | cons d ds ih => simp [backBounds, ih]

lemma fwdBounds_length (opdate : ℤ) (l : List ℤ) (s : ℤ) :
    (fwdBounds opdate l s).length = l.length := by
  induction l generalizing s with
  | nil => rfl
  | cons d ds ih => simp [fwdBounds, ih]

lemma backBounds_strict (opdate : ℤ) (l : List ℤ) (s : ℤ)
    (hv : ∀ d ∈ l, 1 ≤ d) :
    List.Chain' (fun a b => b < a) (backBounds opdate l s) ∧
      ∀ x ∈ backBounds opdate l s, x < opdate - 86400 * s := by
  induction l generalizing s with
  | nil => simp [backBounds]
  | cons d ds ih =>
    have hd : 1 ≤ d := hv d (List.mem_cons_self _ _)
    obtain ⟨ihc, ihb⟩ := ih (s + d) (fun x hx => hv x (List.mem_cons_of_mem _ hx))
    refine ⟨?_, ?_⟩
    · rw [backBounds, List.chain'_cons']
      refine ⟨?_, ihc⟩
      intro y hy
      exact ihb y (List.mem_of_mem_head? hy) |>.trans_le (by nlinarith)
    · intro x hx
      rw [backBounds, List.mem_cons] at hx
      rcases hx with rfl | hx
      · nlinarith
      · exact (ihb x hx).trans_le (by nlinarith)

lemma fwdBounds_strict (opdate : ℤ) (l : List ℤ) (s : ℤ)
    (hv : ∀ d ∈ l, 1 ≤ d) :
    List.Chain' (· < ·) (fwdBounds opdate l s) ∧
      ∀ x ∈ fwdBounds opdate l s, opdate + 86400 * s < x := by
  induction l generalizing s with
  | nil => simp [fwdBounds]
  | cons d ds ih =>
    have hd : 1 ≤ d := hv d (List.mem_cons_self _ _)
    obtain ⟨ihc, ihb⟩ := ih (s + d) (fun x hx => hv x (List.mem_cons_of_mem _ hx))
    refine ⟨?_, ?_⟩
    · rw [fwdBounds, List.chain'_cons']
      refine ⟨?_, ihc⟩
      intro y hy
      exact lt_of_le_of_lt (by nlinarith) (ihb y (List.mem_of_mem_head? hy))
    · intro x hx
      rw [fwdBounds, List.mem_cons] at hx
      rcases hx with rfl | hx
      · nlinarith
      · exact lt_of_le_of_lt (by nlinarith) (ihb x hx)

lemma backBounds_getLast? (opdate : ℤ) (l : List ℤ) (s : ℤ) (h : l ≠ []) :
    (backBounds opdate l s).getLast? = some (opdate - 86400 * (s + l.sum)) := by
  induction l generalizing s with
  | nil => exact absurd rfl h
  | cons d ds ih =>
    cases ds with
    | nil => simp [backBounds]
    | cons d' ds' =>
      have h1 : backBounds opdate (d :: d' :: ds') s =
          (opdate - 86400 * (s + d)) ::
            ((opdate - 86400 * (s + d + d')) :: backBounds opdate ds' (s + d + d')) := rfl
      have h2 : (opdate - 86400 * (s + d + d')) :: backBounds opdate ds' (s + d + d') =
          backBounds opdate (d' :: ds') (s + d) := rfl
      rw [h1, List.getLast?_cons_cons, h2, ih (s + d) (by simp)]
      congr 1
      simp only [List.sum_cons]
      ring

lemma fwdBounds_getLast? (opdate : ℤ) (l : List ℤ) (s : ℤ) (h : l ≠ []) :
    (fwdBounds opdate l s).getLast? = some (opdate + 86400 * (s + l.sum)) := by
  induction l generalizing s with
  | nil => exact absurd rfl h
  | cons d ds ih =>
    cases ds with
    | nil => simp [fwdBounds]
    | cons d' ds' =>
      have h1 : fwdBounds opdate (d :: d' :: ds') s =
          (opdate + 86400 * (s + d)) ::
            ((opdate + 86400 * (s + d + d')) :: fwdBounds opdate ds' (s + d + d')) := rfl
      have h2 : (opdate + 86400 * (s + d + d')) :: fwdBounds opdate ds' (s + d + d') =
          fwdBounds opdate (d' :: ds') (s + d) := rfl
      rw [h1, List.getLast?_cons_cons, h2, ih (s + d) (by simp)]
      congr 1
      simp only [List.sum_cons]
      ring

lemma simBounds_chain (opdate : ℤ) (hct fct : List ℤ)
    (hh : ∀ d ∈ hct, 1 ≤ d) (hf : ∀ d ∈ fct, 1 ≤ d) :
    List.Chain' (· < ·) (simBounds opdate hct fct) := by
  obtain ⟨hbc, hbb⟩ := backBounds_strict opdate hct.reverse 0
    (fun d hd => hh d (List.mem_reverse.mp hd))
  obtain ⟨hfc, hfb⟩ := fwdBounds_strict opdate fct 0 hf
  rw [simBounds, List.chain'_append]
  refine ⟨?_, ?_, ?_⟩
  · rw [List.chain'_reverse]
    exact hbc
  · rw [List.chain'_cons']
    refine ⟨fun y hy => ?_, hfc⟩
    have := hfb y (List.mem_of_mem_head? hy)
    simpa using this
  · intro x hx y hy
    simp only [List.head?_cons, Option.mem_def, Option.some.injEq] at hy
    subst hy
    have hx' : x ∈ (backBounds opdate hct.reverse 0).reverse :=
      List.mem_of_mem_getLast? hx
    have := hbb x (List.mem_reverse.mp hx')
    simpa using this

lemma simBounds_length (opdate : ℤ) (hct fct : List ℤ) :
    (simBounds opdate hct fct).length = hct.length + fct.length + 1 := by
  simp [simBounds, backBounds_length, fwdBounds_length]
  omega

lemma simBounds_head? (opdate : ℤ) (hct fct : List ℤ) :
    (simBounds opdate hct fct).head? = some (opdate - 86400 * hct.sum) := by
  rw [simBounds, List.head?_append]
  cases h : hct with
  | nil =>
    simp [backBounds, h]
  | cons d ds =>
    rw [List.head?_reverse, backBounds_getLast? opdate (d :: ds).reverse 0 (by simp),
      List.sum_reverse]
    simp

lemma simBounds_getLast? (opdate : ℤ) (hct fct : List ℤ) :
    (simBounds opdate hct fct).getLast? = some (opdate + 86400 * fct.sum) := by
  rw [simBounds, List.getLast?_append]
  cases h : fct with
  | nil =>
    simp [fwdBounds]
  | cons d ds =>
    rw [show opdate :: fwdBounds opdate (d :: ds) 0 =
      [opdate] ++ fwdBounds opdate (d :: ds) 0 from rfl, List.getLast?_append,
      fwdBounds_getLast? opdate (d :: ds) 0 (by simp)]
    simp

lemma tail_dropLast_comm {α : Type} (l : List α) :
    l.tail.dropLast = l.dropLast.tail := by
  cases l with
  | nil => rfl
  | cons x xs =>
    cases xs with
    | nil => rfl
    | cons y ys => simp [List.dropLast]

lemma zip_adjacent_of_chain {l : List ℤ} (h : List.Chain' (· < ·) l) :
    ∀ p ∈ l.dropLast.zip l.tail, p.1 < p.2 := by
  induction l with
  | nil => intro p hp; simp at hp
  | cons x xs ih =>
    cases xs with
    | nil => intro p hp; simp at hp
    | cons y ys =>
      rw [List.chain'_cons] at h
      intro p hp
      rw [show (x :: y :: ys).dropLast = x :: (y :: ys).dropLast by simp [List.dropLast],
        List.tail_cons, List.zip_cons_cons, List.mem_cons] at hp
      rcases hp with rfl | hp
      · exact h.1
      · exact ih h.2 p hp

/-- C1. For every valid configuration (directories and operation date
valid, every hindcast/forecast entry a positive Python integer, at least
one of the two lists non-empty, optional start-time offset applied to
`opdate`), the stage-planning part of `SimOps.chcksim` succeeds and
produces exactly `len(hindcast) + len(forecast)` stages; the boundary
list is strictly increasing, the stages are contiguous (each stage's end
is the next stage's start) with each start strictly before its end, and
the union of the stages is exactly
`[opdate − Σhindcast, opdate + Σforecast]` days (here in seconds). -/
theorem C1_stage_planner (opdate0 startime : ℤ) (hct fct : List JVal)
    (hv : ∀ v ∈ hct ++ fct, entryValid v = true)
    (hne : ¬(hct = [] ∧ fct = [])) :
    chcksimPlan true true opdate0 startime hct fct =
      .ok (stageIni (opdate0 + 3600 * startime) (hct.map jval) (fct.map jval),
           stageFin (opdate0 + 3600 * startime) (hct.map jval) (fct.map jval)) ∧
    (stageIni (opdate0 + 3600 * startime) (hct.map jval) (fct.map jval)).length
        = hct.length + fct.length ∧
    (stageFin (opdate0 + 3600 * startime) (hct.map jval) (fct.map jval)).length
        = hct.length + fct.length ∧
    List.Chain' (· < ·)
      (simBounds (opdate0 + 3600 * startime) (hct.map jval) (fct.map jval)) ∧
    (stageFin (opdate0 + 3600 * startime) (hct.map jval) (fct.map jval)).dropLast
        = (stageIni (opdate0 + 3600 * startime) (hct.map jval) (fct.map jval)).tail ∧
    (∀ p ∈ (stageIni (opdate0 + 3600 * startime) (hct.map jval) (fct.map jval)).zip
        (stageFin (opdate0 + 3600 * startime) (hct.map jval) (fct.map jval)),
      p.1 < p.2) ∧
    (stageIni (opdate0 + 3600 * startime) (hct.map jval) (fct.map jval)).head?
        = some (opdate0 + 3600 * startime - 86400 * (hct.map jval).sum) ∧
    (stageFin (opdate0 + 3600 * startime) (hct.map jval) (fct.map jval)).getLast?
        = some (opdate0 + 3600 * startime + 86400 * (fct.map jval).sum) := by
  set opdate := opdate0 + 3600 * startime with hop
  have hvh : ∀ v ∈ hct, entryValid v = true :=
    fun v hv' => hv v (List.mem_append_left _ hv')
  have hvf : ∀ v ∈ fct, entryValid v = true :=
    fun v hv' => hv v (List.mem_append_right _ hv')
  have hh1 : ∀ d ∈ hct.map jval, 1 ≤ d := by
    intro d hd
    obtain ⟨v, hv', rfl⟩ := List.mem_map.mp hd
    have := hvh v hv'
    cases v with
    | int z => simpa [entryValid, jval] using this
    | nonint => simp [entryValid] at this
  have hf1 : ∀ d ∈ fct.map jval, 1 ≤ d := by
    intro d hd
    obtain ⟨v, hv', rfl⟩ := List.mem_map.mp hd
    have := hvf v hv'
    cases v with
    | int z => simpa [entryValid, jval] using this
    | nonint => simp [entryValid] at this
  have hchain := simBounds_chain opdate (hct.map jval) (fct.map jval) hh1 hf1
  have hlen := simBounds_length opdate (hct.map jval) (fct.map jval)
  have hplan : chcksimPlan true true opdate0 startime hct fct =
      .ok (stageIni opdate (hct.map jval) (fct.map jval),
           stageFin opdate (hct.map jval) (fct.map jval)) := by
    rw [chcksimPlan]
    have hnonempty : (hct.isEmpty && fct.isEmpty) = false := by
      rcases List.isEmpty_iff (l := hct) with ⟨h1, h2⟩
      cases hb : hct.isEmpty with
      | false => simp
      | true =>
        cases hb' : fct.isEmpty with
        | false => simp
        | true =>
          exact absurd ⟨List.isEmpty_iff.mp hb, List.isEmpty_iff.mp hb'⟩ hne
    simp only [hnonempty, Bool.false_eq_true, if_false, if_neg]
    rw [if_neg (by simp), if_neg (by simp)]
    rw [if_neg (by simpa [List.all_eq_true] using hvh),
      if_neg (by simpa [List.all_eq_true] using hvf)]
  have hpos : 1 ≤ hct.length + fct.length := by
    rcases not_and_or.mp hne with h | h
    · have := List.length_pos.mpr h
      omega
    · have := List.length_pos.mpr h
      omega
  refine ⟨hplan, ?_, ?_, hchain, ?_, ?_, ?_, ?_⟩
  · rw [stageIni, List.length_dropLast, hlen]
    simp only [List.length_map]
    omega
  · rw [stageFin, List.length_tail, hlen]
    simp only [List.length_map]
    omega
  · rw [stageFin, stageIni, tail_dropLast_comm]
  · rw [stageIni, stageFin]
    exact zip_adjacent_of_chain hchain
  · rw [stageIni, List.head?_dropLast, if_pos (by rw [hlen]; simp [List.length_map]; omega),
      simBounds_head? opdate (hct.map jval) (fct.map jval)]
  · rw [stageFin, List.getLast?_tail,
      if_neg (by rw [hlen]; simp only [List.length_map]; omega),
      simBounds_getLast? opdate (hct.map jval) (fct.map jval)]

/-- Witness for C1 at the spec's example: `opdate = 2024-06-10` (encoded as
second 0), `hindcast = [2,3]`, `forecast = [1]`; the three stages are
(06-05,06-07), (06-07,06-10), (06-10,06-11), i.e. starts
`[-432000, -259200, 0]` and ends `[-259200, 0, 86400]` in seconds. -/
theorem C1_stage_planner_witness :
    (∀ v ∈ ([JVal.int 2, JVal.int 3] ++ [JVal.int 1]), entryValid v = true) ∧
    ¬([JVal.int 2, JVal.int 3] = ([] : List JVal) ∧ [JVal.int 1] = ([] : List JVal)) ∧
    chcksimPlan true true 0 0 [JVal.int 2, JVal.int 3] [JVal.int 1] =
      Except.ok ([-432000, -259200, 0], [-259200, 0, 86400]) := by
  refine ⟨by decide, by decide, ?_⟩
  have h := C1_stage_planner 0 0 [JVal.int 2, JVal.int 3] [JVal.int 1]
    (by decide) (by decide)
  exact h.1.trans (congrArg Except.ok (by decide))

/-- The externally observable actions of `sim_manager`
(`m_sim_manager.py`): preparing a stage (`ops.prepsim(runid)`), invoking
the MOHID engine for a stage (`runsim`), the retention cleanup
(`ops.rmold`, called from `copyouts`/`database`), the output copying
(`ops.copyouts`), and the output-assembly step (`ops.database`). -/
inductive Ev where
  | prepare (runid : ℕ)
  | engine (runid : ℕ)
  | retention
  | copyouts
  | database
  deriving DecidableEq

/-- The stage loop of `sim_manager`: `for stage in range(len(ops.ini))`,
with `runid = stage + 1`; `prepsim` failure returns immediately, a failed
`runsim` logs, notifies and returns.  `s` is the current runid and `n`
the number of stages left; `prep`/`run` give each stage's outcome.
Returns the emitted events and whether every stage succeeded. -/
def stagesTrace (prep run : ℕ → Bool) : ℕ → ℕ → List Ev × Bool
  | _, 0 => ([], true)
  | s, n + 1 =>
    if prep s = false then ([.prepare s], false)
    else if run s = false then ([.prepare s, .engine s], false)
    else
      let r := stagesTrace prep run (s + 1) n
      (.prepare s :: .engine s :: r.1, r.2)

/-- `sim_manager` as a trace: if `chcksim` failed, return immediately
(no events); otherwise run the stage loop; only when every stage
succeeded do `copyouts` (which first runs the `rmold` retention) and,
when `postops` is configured, the `database` output assembly happen. -/
def simManagerTrace (chck : Except ChkErr (List ℤ × List ℤ))
    (prep run : ℕ → Bool) (postops : Bool) : List Ev :=
  match chck with
  | .error _ => []
  | .ok plan =>
    let r := stagesTrace prep run 1 plan.1.length
    if r.2 = false then r.1
    else r.1 ++ .retention :: .copyouts :: (if postops then [.database] else [])

/-- C7. The planner part of `SimOps.chcksim` rejects the configuration
before any stage runs: with both `hindcast` and `forecast` empty it
fails with the "null simulation range" error, and with any entry of
either list not a positive Python integer it fails with the invalid
hindcast/forecast step-time error; on any such failure `sim_manager`
returns immediately, so no stage is prepared or executed. -/
theorem C7_config_rejection (opdate0 startime : ℤ) (hct fct : List JVal)
    (prep run : ℕ → Bool) (post : Bool) :
    (hct = [] → fct = [] →
      chcksimPlan true true opdate0 startime hct fct = .error .nullRange) ∧
    ((∃ v ∈ hct ++ fct, entryValid v = false) →
      ∃ e, chcksimPlan true true opdate0 startime hct fct = .error e ∧
        (e = .badHindcast ∨ e = .badForecast)) ∧
    (∀ e, chcksimPlan true true opdate0 startime hct fct = .error e →
      ∀ j, Ev.prepare j ∉
          simManagerTrace (chcksimPlan true true opdate0 startime hct fct) prep run post ∧
        Ev.engine j ∉
          simManagerTrace (chcksimPlan true true opdate0 startime hct fct) prep run post) := by
  refine ⟨?_, ?_, ?_⟩
  · rintro rfl rfl
    simp [chcksimPlan]
  · rintro ⟨v, hv, hval⟩
    have hne : (hct.isEmpty && fct.isEmpty) = false := by
      rcases List.mem_append.mp hv with h | h
      · have : hct ≠ [] := List.ne_nil_of_mem h
        simp [this]
      · have : fct ≠ [] := List.ne_nil_of_mem h
        simp [this]
    by_cases hh : hct.all entryValid = true
    · have hvf : v ∈ fct := by
        rcases List.mem_append.mp hv with h | h
        · have := List.all_eq_true.mp hh v h
          rw [hval] at this
          exact absurd this (by simp)
        · exact h
      have hf : ¬ fct.all entryValid = true := by
        intro hcon
        have := List.all_eq_true.mp hcon v hvf
        rw [hval] at this
        exact absurd this (by simp)
      exact ⟨.badForecast, by simp [chcksimPlan, hne, hh, hf], Or.inr rfl⟩
    · exact ⟨.badHindcast, by simp [chcksimPlan, hne, hh], Or.inl rfl⟩
  · intro e he j
    rw [he]
    simp [simManagerTrace]

/-- Witness for C7: the empty configuration is rejected as a null
simulation range and leads to an empty pipeline trace (no stage is
prepared), and a configuration with the non-positive hindcast entry `0`
is rejected as well. -/
theorem C7_config_rejection_witness :
    chcksimPlan true true 0 0 [] [] = .error .nullRange ∧
    Ev.prepare 1 ∉ simManagerTrace (chcksimPlan true true 0 0 [] [])
      (fun _ => true) (fun _ => true) true ∧
    (∃ e, chcksimPlan true true 0 0 [JVal.int 0] [JVal.int 1] = .error e ∧
      (e = .badHindcast ∨ e = .badForecast)) := by
  have h := C7_config_rejection 0 0 ([] : List JVal) [] (fun _ => true) (fun _ => true) true
  have h2 := C7_config_rejection 0 0 [JVal.int 0] [JVal.int 1]
    (fun _ => true) (fun _ => true) true
  exact ⟨h.1 rfl rfl, (h.2.2 _ (h.1 rfl rfl) 1).1,
    h2.2.1 ⟨JVal.int 0, by decide, by decide⟩⟩

lemma stagesTrace_ok_iff (prep run : ℕ → Bool) (s n : ℕ) :
    (stagesTrace prep run s n).2 = true ↔
      ∀ i, s ≤ i → i < s + n → prep i = true ∧ run i = true := by
  induction n generalizing s with
  | zero =>
    simp only [stagesTrace, true_iff]
    intro i h1 h2
    omega
  | succ n ih =>
    rw [stagesTrace]
    cases hp : prep s with
    | false =>
      rw [if_pos rfl]
      constructor
      · intro hcon
        simp at hcon
      · intro hall
        have := (hall s le_rfl (by omega)).1
        rw [hp] at this
        exact absurd this (by simp)
    | true =>
      rw [if_neg (by simp)]
      cases hr : run s with
      | false =>
        rw [if_pos rfl]
        constructor
        · intro hcon
          simp at hcon
        · intro hall
          have := (hall s le_rfl (by omega)).2
          rw [hr] at this
          exact absurd this (by simp)
      | true =>
        rw [if_neg (by simp)]
        show (stagesTrace prep run (s + 1) n).2 = true ↔ _
        rw [ih (s + 1)]
        constructor
        · intro hall i h1 h2
          rcases eq_or_lt_of_le h1 with rfl | h1'
          · exact ⟨hp, hr⟩
          · exact hall i (by omega) (by omega)
        · intro hall i h1 h2
          exact hall i (by omega) (by omega)

lemma stagesTrace_prepare_mem {prep run : ℕ → Bool} {s n j : ℕ}
    (h : Ev.prepare j ∈ (stagesTrace prep run s n).1) :
    s ≤ j ∧ j < s + n ∧ ∀ i, s ≤ i → i < j → prep i = true ∧ run i = true := by
  induction n generalizing s with
  | zero => simp [stagesTrace] at h
  | succ n ih =>
    rw [stagesTrace] at h
    cases hp : prep s with
    | false =>
      rw [hp, if_pos rfl] at h
      simp only [List.mem_singleton, Ev.prepare.injEq] at h
      subst h
      exact ⟨le_rfl, by omega, fun i h1 h2 => by omega⟩
    | true =>
      rw [hp, if_neg (by simp)] at h
      cases hr : run s with
      | false =>
        rw [hr, if_pos rfl] at h
        simp only [List.mem_cons, List.mem_singleton, Ev.prepare.injEq] at h
        rcases h with h | h
        · subst h
          exact ⟨le_rfl, by omega, fun i h1 h2 => by omega⟩
        · simp at h
      | true =>
        rw [hr, if_neg (by simp)] at h
        simp only [List.mem_cons, Ev.prepare.injEq] at h
        rcases h with h | h | h
        · subst h
          exact ⟨le_rfl, by omega, fun i h1 h2 => by omega⟩
        · simp at h
        · obtain ⟨h1, h2, h3⟩ := ih h
          refine ⟨by omega, by omega, fun i hi1 hi2 => ?_⟩
          rcases eq_or_lt_of_le hi1 with rfl | hi1'
          · exact ⟨hp, hr⟩
          · exact h3 i (by omega) (by omega)

lemma stagesTrace_engine_mem {prep run : ℕ → Bool} {s n j : ℕ}
    (h : Ev.engine j ∈ (stagesTrace prep run s n).1) :
    s ≤ j ∧ j < s + n ∧ prep j = true ∧
      ∀ i, s ≤ i → i < j → prep i = true ∧ run i = true := by
  induction n generalizing s with
  | zero => simp [stagesTrace] at h
  | succ n ih =>
    rw [stagesTrace] at h
    cases hp : prep s with
    | false =>
      rw [hp, if_pos rfl] at h
      simp at h
    | true =>
      rw [hp, if_neg (by simp)] at h
      cases hr : run s with
      | false =>
        rw [hr, if_pos rfl] at h
        simp only [List.mem_cons, List.mem_singleton, Ev.engine.injEq] at h
        rcases h with h | h | h
        · exact absurd h (by simp)
        · subst h
          exact ⟨le_rfl, by omega, hp, fun i h1 h2 => by omega⟩
        · simp at h
      | true =>
        rw [hr, if_neg (by simp)] at h
        simp only [List.mem_cons, Ev.engine.injEq] at h
        rcases h with h | h | h
        · simp at h
        · subst h
          exact ⟨le_rfl, by omega, hp, fun i h1 h2 => by omega⟩
        · obtain ⟨h1, h2, h3, h4⟩ := ih h
          refine ⟨by omega, by omega, h3, fun i hi1 hi2 => ?_⟩
          rcases eq_or_lt_of_le hi1 with rfl | hi1'
          · exact ⟨hp, hr⟩
          · exact h4 i (by omega) (by omega)

lemma stagesTrace_stage_events_only (prep run : ℕ → Bool) (s n : ℕ) :
    Ev.retention ∉ (stagesTrace prep run s n).1 ∧
    Ev.copyouts ∉ (stagesTrace prep run s n).1 ∧
    Ev.database ∉ (stagesTrace prep run s n).1 := by
  induction n generalizing s with
  | zero => simp [stagesTrace]
  | succ n ih =>
    rw [stagesTrace]
    cases hp : prep s with
    | false =>
      rw [if_pos rfl]
      simp
    | true =>
      rw [if_neg (by simp)]
      cases hr : run s with
      | false =>
        rw [if_pos rfl]
        simp
      | true =>
        rw [if_neg (by simp)]
        obtain ⟨ih1, ih2, ih3⟩ := ih (s + 1)
        simp [ih1, ih2, ih3]

/-- C5. In `sim_manager`, whenever a stage fails (its `prepsim` returns
nonzero or its `runsim` is classified failed), the pipeline aborts: no
later stage is prepared or executed, and the output copying
(`copyouts`), the database assembly (`database`) and the retention
cleanup (`rmold`) are all skipped; only when every stage succeeds is the
copy step reached, and the output assembler (`database`) runs exactly
when post-processing is configured. -/
theorem C5_pipeline_abort (ini fin : List ℤ) (prep run : ℕ → Bool) (post : Bool) :
    (∀ i, 1 ≤ i → i ≤ ini.length →
      ¬(prep i = true ∧ run i = true) →
      (∀ j, i < j →
        Ev.prepare j ∉ simManagerTrace (.ok (ini, fin)) prep run post ∧
        Ev.engine j ∉ simManagerTrace (.ok (ini, fin)) prep run post) ∧
      Ev.retention ∉ simManagerTrace (.ok (ini, fin)) prep run post ∧
      Ev.copyouts ∉ simManagerTrace (.ok (ini, fin)) prep run post ∧
      Ev.database ∉ simManagerTrace (.ok (ini, fin)) prep run post) ∧
    ((∀ k, 1 ≤ k → k ≤ ini.length → prep k = true ∧ run k = true) →
      Ev.copyouts ∈ simManagerTrace (.ok (ini, fin)) prep run post ∧
      (Ev.database ∈ simManagerTrace (.ok (ini, fin)) prep run post ↔ post = true)) := by
  constructor
  · intro i hi1 hi2 hfail
    have hnot : (stagesTrace prep run 1 ini.length).2 = false := by
      cases hok : (stagesTrace prep run 1 ini.length).2 with
      | false => rfl
      | true =>
        have := (stagesTrace_ok_iff prep run 1 ini.length).mp hok i hi1 (by omega)
        exact absurd this hfail
    have htr : simManagerTrace (.ok (ini, fin)) prep run post =
        (stagesTrace prep run 1 ini.length).1 := by
      simp [simManagerTrace, hnot]
    rw [htr]
    obtain ⟨hre, hco, hdb⟩ := stagesTrace_stage_events_only prep run 1 ini.length
    refine ⟨fun j hj => ⟨?_, ?_⟩, hre, hco, hdb⟩
    · intro hmem
      obtain ⟨_, _, hall⟩ := stagesTrace_prepare_mem hmem
      exact hfail (hall i hi1 hj)
    · intro hmem
      obtain ⟨_, _, _, hall⟩ := stagesTrace_engine_mem hmem
      exact hfail (hall i hi1 hj)
  · intro hall
    have hok : (stagesTrace prep run 1 ini.length).2 = true :=
      (stagesTrace_ok_iff prep run 1 ini.length).mpr
        (fun i h1 h2 => hall i h1 (by omega))
    have htr : simManagerTrace (.ok (ini, fin)) prep run post =
        (stagesTrace prep run 1 ini.length).1 ++
          Ev.retention :: Ev.copyouts :: (if post then [Ev.database] else []) := by
      simp [simManagerTrace, hok]
    rw [htr]
    obtain ⟨hre, hco, hdb⟩ := stagesTrace_stage_events_only prep run 1 ini.length
    refine ⟨by simp, ?_⟩
    constructor
    · intro hmem
      rcases List.mem_append.mp hmem with h | h
      · exact absurd h hdb
      · cases post with
        | true => rfl
        | false => simp at h
    · intro hpost
      subst hpost
      simp

/-- Witness for C5: with three stages where stage 2's engine run fails,
stage 3 is not prepared and `copyouts`/`database`/retention are skipped;
with all stages succeeding and post-processing on, `copyouts` and
`database` are reached. -/
theorem C5_pipeline_abort_witness :
    (Ev.prepare 3 ∉ simManagerTrace (.ok ([0, 1, 2], [1, 2, 3]))
        (fun _ => true) (fun i => i != 2) true ∧
      Ev.copyouts ∉ simManagerTrace (.ok ([0, 1, 2], [1, 2, 3]))
        (fun _ => true) (fun i => i != 2) true) ∧
    Ev.copyouts ∈ simManagerTrace (.ok ([0, 1, 2], [1, 2, 3]))
        (fun _ => true) (fun _ => true) true := by
  have h := C5_pipeline_abort ([0, 1, 2]) ([1, 2, 3]) (fun _ => true) (fun i => i != 2) true
  have h2 := C5_pipeline_abort ([0, 1, 2]) ([1, 2, 3]) (fun _ => true) (fun _ => true) true
  have hfail := h.1 2 (by decide) (by decide) (by decide)
  exact ⟨⟨(hfail.1 3 (by decide)).1, hfail.2.2.1⟩,
    (h2.2 (fun k h1 h2 => ⟨rfl, rfl⟩)).1⟩

/-- The per-search-pattern loop of `SimOps.getforc`
(`while ini < fin and not manbreak`): search for forcing data; if a file
is found or `alive` is false, break; otherwise decrement `fin` by one
day (`fin -= timedelta(1)`, here 86400 seconds, mutating `self.fin`) and
retry.  Returns (file found?, final value of `fin`, number of searches
performed).  `search ini fin` abstracts `searchfiles(prfx)` being
non-empty for the window `[ini, fin]` (it reads the mutated `fin`). -/
def degradeLoop (search : ℤ → ℤ → Bool) (alive : Bool) (ini fin : ℤ) :
    Bool × ℤ × ℕ :=
  if h : ini < fin then
    if search ini fin then (true, fin, 1)
    else if alive then
      have : (fin - 86400 - ini).toNat < (fin - ini).toNat := by omega
      let r := degradeLoop search alive ini (fin - 86400)
      (r.1, r.2.1, r.2.2 + 1)
    else (false, fin, 1)
  else (false, fin, 0)
termination_by (fin - ini).toNat

/-- One search-pattern iteration of `SimOps.getforc`: `alive` is
`keepalive and len(self.ini) == 1`; after the degrade loop, an empty
result is the fatal "forcing data not found" error (`return 1`),
otherwise the found window's final date stands. -/
def getforcOne (keepalive : Bool) (nstages : ℕ) (search : ℤ → ℤ → Bool)
    (ini fin : ℤ) : Except Unit ℤ :=
  let alive := keepalive && (nstages == 1)
  let r := degradeLoop search alive ini fin
  if r.1 then .ok r.2.1 else .error ()

lemma degradeLoop_step_down (search : ℤ → ℤ → Bool) (alive : Bool)
    (ini x : ℤ) (hlt : ini < x) (hs : ¬ search ini x = true) (ha : alive = true) :
    degradeLoop search alive ini x =
      ((degradeLoop search alive ini (x - 86400)).1,
       (degradeLoop search alive ini (x - 86400)).2.1,
       (degradeLoop search alive ini (x - 86400)).2.2 + 1) := by
  rw [degradeLoop]
  rw [dif_pos hlt, if_neg hs, if_pos ha]

lemma degradeLoop_found (search : ℤ → ℤ → Bool) (alive : Bool)
    (ini x : ℤ) (hlt : ini < x) (hs : search ini x = true) :
    degradeLoop search alive ini x = (true, x, 1) := by
  rw [degradeLoop]
  rw [dif_pos hlt, if_pos hs]

lemma degradeLoop_noalive (search : ℤ → ℤ → Bool) (alive : Bool)
    (ini x : ℤ) (hlt : ini < x) (hs : ¬ search ini x = true)
    (ha : ¬ alive = true) :
    degradeLoop search alive ini x = (false, x, 1) := by
  rw [degradeLoop]
  rw [dif_pos hlt, if_neg hs, if_neg ha]

lemma degradeLoop_base (search : ℤ → ℤ → Bool) (alive : Bool)
    (ini x : ℤ) (hlt : ¬ ini < x) :
    degradeLoop search alive ini x = (false, x, 0) := by
  rw [degradeLoop]
  rw [dif_neg hlt]

lemma degradeLoop_final_ge (search : ℤ → ℤ → Bool) (alive : Bool) (ini : ℤ) :
    ∀ fin : ℤ, (86400 : ℤ) ∣ (fin - ini) → ini ≤ fin →
      ini ≤ (degradeLoop search alive ini fin).2.1 := by
  intro fin
  induction fin using degradeLoop.induct search alive ini with
  | case1 x hlt hs =>
    intro _ h
    rw [degradeLoop_found search alive ini x hlt hs]
    exact h
  | case2 x hlt hs ha hdec ih =>
    intro hd h
    have hday : (86400 : ℤ) ≤ x - ini := Int.le_of_dvd (by omega) hd
    have hd' : (86400 : ℤ) ∣ (x - 86400 - ini) := by
      have : x - 86400 - ini = (x - ini) - 86400 := by ring
      rw [this]
      exact dvd_sub hd dvd_rfl
    rw [degradeLoop_step_down search alive ini x hlt hs ha]
    exact ih hd' (by omega)
  | case3 x hlt hs ha =>
    intro _ h
    rw [degradeLoop_noalive search alive ini x hlt hs ha]
    exact h
  | case4 x hlt =>
    intro _ h
    rw [degradeLoop_base search alive ini x hlt]
    exact h

lemma degradeLoop_count_le (search : ℤ → ℤ → Bool) (alive : Bool) (ini : ℤ) :
    ∀ fin : ℤ, (86400 : ℤ) ∣ (fin - ini) → ini ≤ fin →
      86400 * ((degradeLoop search alive ini fin).2.2 : ℤ) ≤ fin - ini := by
  intro fin
  induction fin using degradeLoop.induct search alive ini with
  | case1 x hlt hs =>
    intro hd _
    have hday : (86400 : ℤ) ≤ x - ini := Int.le_of_dvd (by omega) hd
    rw [degradeLoop_found search alive ini x hlt hs]
    simpa using hday
  | case2 x hlt hs ha hdec ih =>
    intro hd h
    have hday : (86400 : ℤ) ≤ x - ini := Int.le_of_dvd (by omega) hd
    have hd' : (86400 : ℤ) ∣ (x - 86400 - ini) := by
      have : x - 86400 - ini = (x - ini) - 86400 := by ring
      rw [this]
      exact dvd_sub hd dvd_rfl
    rw [degradeLoop_step_down search alive ini x hlt hs ha]
    have := ih hd' (by omega)
    push_cast
    push_cast at this
    linarith
  | case3 x hlt hs ha =>
    intro hd _
    have hday : (86400 : ℤ) ≤ x - ini := Int.le_of_dvd (by omega) hd
    rw [degradeLoop_noalive search alive ini x hlt hs ha]
    simpa using hday
  | case4 x hlt =>
    intro _ h
    rw [degradeLoop_base search alive ini x hlt]
    simp
    omega

lemma degradeLoop_stops (search : ℤ → ℤ → Bool) (alive : Bool) (ini : ℤ)
    (ha : alive = true) :
    ∀ fin : ℤ, (86400 : ℤ) ∣ (fin - ini) → ini ≤ fin →
      (degradeLoop search alive ini fin).1 = true ∨
        (degradeLoop search alive ini fin).2.1 = ini := by
  intro fin
  induction fin using degradeLoop.induct search alive ini with
  | case1 x hlt hs =>
    intro _ _
    rw [degradeLoop_found search alive ini x hlt hs]
    exact Or.inl rfl
  | case2 x hlt hs _ hdec ih =>
    intro hd h
    have hday : (86400 : ℤ) ≤ x - ini := Int.le_of_dvd (by omega) hd
    have hd' : (86400 : ℤ) ∣ (x - 86400 - ini) := by
      have : x - 86400 - ini = (x - ini) - 86400 := by ring
      rw [this]
      exact dvd_sub hd dvd_rfl
    rw [degradeLoop_step_down search alive ini x hlt hs ha]
    exact ih hd' (by omega)
  | case3 x hlt hs hna =>
    exact absurd ha hna
  | case4 x hlt =>
    intro hd h
    rw [degradeLoop_base search alive ini x hlt]
    refine Or.inr ?_
    simp only
    omega

/-- C2. The keep-alive degrade loop of `SimOps.getforc`: with
`alive = keepalive and len(self.ini) == 1`, when no forcing candidate
matches, the loop decrements the stage end one day at a time and
retries; over a stage window that is a whole number of days, the number
of searches is at most `(fin − ini).days`, the mutated end never drops
below the stage start, and (when degrading is active) the loop stops
exactly at a match or at `end = start`; a match on the first search
leaves the window untouched; when keep-alive is off or the plan has
more than one stage, a failed first search ends the loop at once with
the window unmodified and `getforc` returns the fatal missing-forcing
error. -/
theorem C2_degrade_loop (keepalive : Bool) (nst : ℕ) (search : ℤ → ℤ → Bool)
    (ini fin : ℤ) (h1 : ini < fin) (hd : (86400 : ℤ) ∣ (fin - ini)) :
    (((degradeLoop search (keepalive && (nst == 1)) ini fin).2.2 : ℤ) ≤
        (fin - ini) / 86400) ∧
    ini ≤ (degradeLoop search (keepalive && (nst == 1)) ini fin).2.1 ∧
    ((keepalive && (nst == 1)) = true →
      (degradeLoop search (keepalive && (nst == 1)) ini fin).1 = true ∨
        (degradeLoop search (keepalive && (nst == 1)) ini fin).2.1 = ini) ∧
    (search ini fin = true →
      degradeLoop search (keepalive && (nst == 1)) ini fin = (true, fin, 1)) ∧
    ((keepalive = false ∨ nst ≠ 1) → search ini fin = false →
      degradeLoop search (keepalive && (nst == 1)) ini fin = (false, fin, 1) ∧
        getforcOne keepalive nst search ini fin = .error ()) := by
  set alive := keepalive && (nst == 1) with halive
  obtain ⟨k, hk⟩ := hd
  refine ⟨?_, ?_, ?_, ?_, ?_⟩
  · have := degradeLoop_count_le search alive ini fin ⟨k, hk⟩ (le_of_lt h1)
    rw [hk, Int.mul_ediv_cancel_left k (by norm_num)]
    rw [hk] at this
    linarith
  · exact degradeLoop_final_ge search alive ini fin ⟨k, hk⟩ (le_of_lt h1)
  · intro ha
    exact degradeLoop_stops search alive ini ha fin ⟨k, hk⟩ (le_of_lt h1)
  · intro hs
    exact degradeLoop_found search alive ini fin h1 hs
  · intro hoff hs
    have hna : alive = false := by
      rw [halive]
      rcases hoff with h | h
      · simp [h]
      · simp [Nat.beq_eq_true_eq, h]
    have hloop : degradeLoop search alive ini fin = (false, fin, 1) :=
      degradeLoop_noalive search alive ini fin h1 (by simp [hs]) (by simp [hna])
    refine ⟨hloop, ?_⟩
    rw [getforcOne]
    simp only [← halive, hloop]
    rfl

/-- Witness for C2: a three-day single-stage window `[0, 259200]` with a
source only covering up to one day ahead; and a two-stage plan whose
failed search is immediately fatal. -/
theorem C2_degrade_loop_witness :
    ((0 : ℤ) < 259200 ∧ (86400 : ℤ) ∣ (259200 - 0) ∧
      ((degradeLoop (fun _ f => decide (f ≤ 86400)) (true && ((1 : ℕ) == 1)) 0 259200).2.2 : ℤ) ≤
        (259200 - 0) / 86400 ∧
      (0 : ℤ) ≤ (degradeLoop (fun _ f => decide (f ≤ 86400)) (true && ((1 : ℕ) == 1)) 0 259200).2.1) ∧
    getforcOne true 2 (fun _ _ => false) 0 86400 = .error () := by
  have h := C2_degrade_loop true 1 (fun _ f => decide (f ≤ 86400)) 0 259200
    (by decide) (by decide)
  have h2 := C2_degrade_loop true 2 (fun _ _ => false) 0 86400 (by decide) (by decide)
  exact ⟨⟨by decide, by decide, h.1, h.2.1⟩, (h2.2.2.2.2 (Or.inr (by decide)) rfl).2⟩

/-- A forcing candidate file as parsed by `searchfiles` inside
`SimOps.getforc`: a file identity, its filesystem modification time
(`mdate`), and the coverage window `dini`/`dfin` parsed from the
`prefix-YYYYMMDD_YYYYMMDD.ext` name (day-granular dates). -/
structure FFile where
  fid : ℕ
  mdate : ℤ
  dini : ℤ
  dfin : ℤ
  deriving DecidableEq

/-- The order used by `dfin.sort_values(by='mdate', ascending=False)`:
newest modification time first. -/
def byMdateDesc (a b : FFile) : Prop := b.mdate ≤ a.mdate

instance : DecidableRel byMdateDesc := fun a b => Int.decLe b.mdate a.mdate

instance : IsTotal FFile byMdateDesc := ⟨fun a b => le_total b.mdate a.mdate⟩

instance : IsTrans FFile byMdateDesc := ⟨fun _ _ _ h1 h2 => le_trans h2 h1⟩

/-- The row filter of `searchfiles`:
`ini.date() >= dfin["ini"]` and `fin.date() <= dfin["fin"]`, i.e. the
candidate's coverage window encloses the (day-truncated) stage window. -/
def encloses (sIni sFin : ℤ) (f : FFile) : Bool :=
  decide (f.dini ≤ sIni) && decide (sFin ≤ f.dfin)

/-- The nested `searchfiles` function of `SimOps.getforc`: glob the
candidates, sort from newest to oldest modification date, keep the rows
whose coverage encloses the stage window, and return the first remaining
file (empty string, here `none`, when there is none; an empty glob also
returns `none`). -/
def searchfiles (sIni sFin : ℤ) (files : List FFile) : Option FFile :=
  ((List.insertionSort byMdateDesc files).filter (encloses sIni sFin)).head?

/-- C3. `searchfiles` returns no file exactly when no candidate's
coverage encloses the (day-truncated) stage window, and any returned
file is a candidate that encloses the window and whose modification time
is maximal among all enclosing candidates.  Determinism and idempotence
hold definitionally: the selection is a pure function of the candidate
set and the window. -/
theorem C3_forcing_selection (sIni sFin : ℤ) (files : List FFile) :
    (searchfiles sIni sFin files = none ↔
      ∀ f ∈ files, encloses sIni sFin f = false) ∧
    (∀ f, searchfiles sIni sFin files = some f →
      f ∈ files ∧ encloses sIni sFin f = true ∧
        ∀ g ∈ files, encloses sIni sFin g = true → g.mdate ≤ f.mdate) := by
  have hperm : (List.insertionSort byMdateDesc files).Perm files :=
    List.perm_insertionSort byMdateDesc files
  have hsorted : List.Sorted byMdateDesc (List.insertionSort byMdateDesc files) :=
    List.sorted_insertionSort byMdateDesc files
  constructor
  · rw [searchfiles, List.head?_eq_none_iff, List.filter_eq_nil_iff]
    constructor
    · intro hall f hf
      have := hall f (hperm.mem_iff.mpr hf)
      simpa using this
    · intro hall f hf
      have := hall f (hperm.mem_iff.mp hf)
      simp [this]
  · intro f hf
    rw [searchfiles] at hf
    have hmem : f ∈ (List.insertionSort byMdateDesc files).filter (encloses sIni sFin) :=
      List.mem_of_mem_head? hf
    obtain ⟨hmemsort, hencl⟩ := List.mem_filter.mp hmem
    refine ⟨hperm.mem_iff.mp hmemsort, hencl, ?_⟩
    intro g hg hge
    have hgfil : g ∈ (List.insertionSort byMdateDesc files).filter (encloses sIni sFin) :=
      List.mem_filter.mpr ⟨hperm.mem_iff.mpr hg, hge⟩
    have hpw : List.Pairwise byMdateDesc
        ((List.insertionSort byMdateDesc files).filter (encloses sIni sFin)) :=
      hsorted.sublist (List.filter_sublist _)
    cases hfl : (List.insertionSort byMdateDesc files).filter (encloses sIni sFin) with
    | nil =>
      rw [hfl] at hf
      simp at hf
    | cons x xs =>
      rw [hfl] at hf hgfil hpw
      simp only [List.head?_cons, Option.some.injEq] at hf
      subst hf
      rcases List.mem_cons.mp hgfil with rfl | hgx
      · exact le_refl _
      · exact (List.pairwise_cons.mp hpw).1 g hgx

/-- Witness for C3 on three candidates all covering the window
`[-1, 2]`: the newest (modification time 9) is selected, and every
enclosing candidate's modification time is at most 9. -/
theorem C3_forcing_selection_witness :
    searchfiles (-1) 2 [⟨0, 5, -2, 3⟩, ⟨1, 9, -5, 4⟩, ⟨2, 1, -9, 9⟩] =
      some ⟨1, 9, -5, 4⟩ ∧
    (⟨1, 9, -5, 4⟩ : FFile) ∈ ([⟨0, 5, -2, 3⟩, ⟨1, 9, -5, 4⟩, ⟨2, 1, -9, 9⟩] : List FFile) ∧
    encloses (-1) 2 ⟨1, 9, -5, 4⟩ = true ∧
    ∀ g ∈ ([⟨0, 5, -2, 3⟩, ⟨1, 9, -5, 4⟩, ⟨2, 1, -9, 9⟩] : List FFile),
      encloses (-1) 2 g = true → g.mdate ≤ (⟨1, 9, -5, 4⟩ : FFile).mdate := by
  have hs : searchfiles (-1) 2 [⟨0, 5, -2, 3⟩, ⟨1, 9, -5, 4⟩, ⟨2, 1, -9, 9⟩] =
      some ⟨1, 9, -5, 4⟩ := by decide
  have h := (C3_forcing_selection (-1) 2
    [⟨0, 5, -2, 3⟩, ⟨1, 9, -5, 4⟩, ⟨2, 1, -9, 9⟩]).2 ⟨1, 9, -5, 4⟩ hs
  exact ⟨hs, h.1, h.2.1, h.2.2⟩

/-- A directory entry as seen by `SimOps.rmold`: its path name (the glob
result; name order abstracted as `ℕ`) and its filesystem creation time.
`sorted()` compares only the names. -/
structure DirEntry where
  name : ℕ
  ctime : ℤ
  deriving DecidableEq

/-- The order of `sorted(glob(path.join(dirpath, "*")), reverse=True)`:
lexicographically greatest path name first. -/
def byNameDesc (a b : DirEntry) : Prop := b.name ≤ a.name

instance : DecidableRel byNameDesc := fun a b => Nat.decLe b.name a.name

instance : IsTotal DirEntry byNameDesc := ⟨fun a b => le_total b.name a.name⟩

instance : IsTrans DirEntry byNameDesc := ⟨fun _ _ _ h1 h2 => le_trans h2 h1⟩

/-- `SimOps.rmold`: read `keepres` from the configuration (default
`-99`); when `keepres <= 0`, return without touching anything;
otherwise sort the directory entries by name in reverse and delete
every entry of `vals[keepres:]`.  Returns the entries left in the
directory. -/
def rmold (keepres : ℤ) (entries : List DirEntry) : List DirEntry :=
  if keepres ≤ 0 then entries
  else (List.insertionSort byNameDesc entries).take keepres.toNat

/-- C9 counterexample. `rmold` keeps the `keep_n` entries whose names
sort last, not the most recently created ones: with entries
`{name 0, created 10}` and `{name 1, created 5}` and `keep_n = 1`, the
kept entry is the older `{name 1, created 5}`, and the unique most
recently created entry `{name 0, created 10}` is deleted — refuting the
claim that the `keep_n` most recently created entries are left. -/
theorem C9_rmold_counterexample :
    rmold 1 [⟨0, 10⟩, ⟨1, 5⟩] = [⟨1, 5⟩] ∧
    (⟨0, 10⟩ : DirEntry) ∉ rmold 1 [⟨0, 10⟩, ⟨1, 5⟩] ∧
    ∀ e ∈ ([⟨0, 10⟩, ⟨1, 5⟩] : List DirEntry), e.ctime ≤ (⟨0, 10⟩ : DirEntry).ctime := by
  refine ⟨by decide, by decide, ?_⟩
  decide

/-- C9 (amended). When `keep_n > 0`, `rmold` leaves exactly
`min(keep_n, existing_count)` entries — the `keep_n` entries greatest in
name order (for the dated names the pipeline uses, name order equals
creation order, making them the most recent) — and deletes the rest;
every kept entry's name is at least every deleted entry's name.  When
`keep_n ≤ 0`, nothing is deleted. -/
theorem C9_rmold_retention (keepres : ℤ) (entries : List DirEntry) :
    (keepres ≤ 0 → rmold keepres entries = entries) ∧
    (0 < keepres →
      (rmold keepres entries).length = min keepres.toNat entries.length ∧
      (∀ e ∈ rmold keepres entries, e ∈ entries) ∧
      (∀ e ∈ rmold keepres entries,
        ∀ d ∈ (List.insertionSort byNameDesc entries).drop keepres.toNat,
          d.name ≤ e.name)) := by
  have hperm : (List.insertionSort byNameDesc entries).Perm entries :=
    List.perm_insertionSort byNameDesc entries
  have hsorted : List.Sorted byNameDesc (List.insertionSort byNameDesc entries) :=
    List.sorted_insertionSort byNameDesc entries
  constructor
  · intro h
    rw [rmold, if_pos h]
  · intro h
    have hne : ¬ keepres ≤ 0 := by omega
    rw [rmold, if_neg hne]
    refine ⟨?_, ?_, ?_⟩
    · rw [List.length_take, hperm.length_eq]
    · intro e he
      exact hperm.mem_iff.mp ((List.take_sublist _ _).mem he)
    · intro e he d hd
      have hsplit : List.Pairwise byNameDesc
          ((List.insertionSort byNameDesc entries).take keepres.toNat ++
            (List.insertionSort byNameDesc entries).drop keepres.toNat) := by
        rw [List.take_append_drop]
        exact hsorted
      exact (List.pairwise_append.mp hsplit).2.2 e he d hd

/-- Witness for C9 (amended): `keep_n = -99` (the default when the
configuration omits `keepres`) leaves a two-entry directory untouched,
and `keep_n = 2` on three entries leaves exactly two. -/
theorem C9_rmold_retention_witness :
    rmold (-99) [⟨0, 10⟩, ⟨1, 5⟩] = [⟨0, 10⟩, ⟨1, 5⟩] ∧
    (rmold 2 [⟨3, 0⟩, ⟨1, 0⟩, ⟨2, 0⟩]).length = min (2 : ℤ).toNat 3 := by
  have h1 := (C9_rmold_retention (-99) [⟨0, 10⟩, ⟨1, 5⟩]).1 (by decide)
  have h2 := (C9_rmold_retention 2 [⟨3, 0⟩, ⟨1, 0⟩, ⟨2, 0⟩]).2 (by decide)
  exact ⟨h1, h2.1⟩

/-- The daily output directories of `SimOps.database`: starting at the
last stage's initial date, `while control < self.fin[-1]` append a
`%y%m%d` directory and advance `control` by one day.  Each list element
is the directory's date (in seconds). -/
def outdirs (ini fin : ℤ) : List ℤ :=
  if h : ini < fin then ini :: outdirs (ini + 86400) fin else []
termination_by (fin - ini).toNat
decreasing_by omega

/-- The time step computed by `SimOps.database` from the first two
sorted glued files (`hdfs[1] - hdfs[0]` timestamps); `none` when there
are fewer than two glued files, in which case the Python code raises an
`IndexError` instead. -/
def stepOf : List ℤ → Option ℤ
  | t0 :: t1 :: _ => some (t1 - t0)
  | _ => none

/-- The bucketing tail of `SimOps.database`: the per-file step from the
first two glued files, `fpday = int((24*3600)/step)`, and for each
day-directory index `iday` the slice `hdfs[iday*fpday:(iday+1)*fpday]`
of glued files copied into it. -/
def databaseBuckets (hdfs : List ℤ) (nd : ℕ) : Option (ℤ × ℕ × List (List ℤ)) :=
  (stepOf hdfs).map (fun step =>
    let fpd := ((24 * 3600) / step).toNat
    (step, fpd, (List.range nd).map (fun iday => (hdfs.drop (iday * fpd)).take fpd)))

/-- Unhandled Python exceptions reachable in the modelled code. -/
inductive PyExc where
  | indexError
  deriving DecidableEq

/-- The per-domain body of the `SimOps.database` loop: extract the
hydrodynamic file, extract the water-properties file, glue them — any
nonzero status skips the rest and makes `database` return its error
status (modelled `.ok none`); on success the bucketing runs, which
unconditionally indexes `hdfs[1]` and `hdfs[0]` — with fewer than two
glued files this raises an `IndexError`. -/
def databaseDomain (extractHD extractWP glueOk : Bool) (hdfs : List ℤ)
    (nd : ℕ) : Except PyExc (Option (ℤ × ℕ × List (List ℤ))) :=
  if extractHD = false then .ok none
  else if extractWP = false then .ok none
  else if glueOk = false then .ok none
  else
    match databaseBuckets hdfs nd with
    | none => .error .indexError
    | some x => .ok (some x)

lemma outdirs_length (n : ℕ) : ∀ ini fin : ℤ, fin - ini = 86400 * n →
    (outdirs ini fin).length = n := by
  induction n with
  | zero =>
    intro ini fin h
    rw [outdirs, dif_neg (by omega)]
    rfl
  | succ n ih =>
    intro ini fin h
    have hn : (0 : ℤ) ≤ 86400 * n := by positivity
    rw [outdirs, dif_pos (by push_cast at h ⊢; omega)]
    rw [List.length_cons, ih (ini + 86400) fin (by push_cast at h ⊢; omega)]

/-- C8. Under a uniform cadence (glued file `k` at time `t0 + k·step`,
with `step` a positive divisor of a day) and a file count matching the
day-directory span up to a final partial day, the bucketing of
`SimOps.database` computes the step as the difference of the first two
glued files, `files_per_day = 86400 / step`, one dated directory per day
of the last stage, and every directory receives exactly `files_per_day`
files except the final one, which receives the `n − (nd−1)·fpday`
remainder. -/
theorem C8_database_bucketing (t0 step : ℤ) (n nd : ℕ) (dayStart : ℤ)
    (hstep : 0 < step) (hn : 2 ≤ n) (hnd : 1 ≤ nd)
    (hlow : (nd - 1) * ((24 * 3600 : ℤ) / step).toNat ≤ n)
    (hhigh : n ≤ nd * ((24 * 3600 : ℤ) / step).toNat) :
    stepOf ((List.range n).map (fun k : ℕ => t0 + (k : ℤ) * step)) = some step ∧
    (outdirs dayStart (dayStart + 86400 * nd)).length = nd ∧
    databaseBuckets ((List.range n).map (fun k : ℕ => t0 + (k : ℤ) * step)) nd =
      some (step, ((24 * 3600 : ℤ) / step).toNat,
        (List.range nd).map (fun iday =>
          ((((List.range n).map (fun k : ℕ => t0 + (k : ℤ) * step)).drop
            (iday * ((24 * 3600 : ℤ) / step).toNat)).take
            ((24 * 3600 : ℤ) / step).toNat))) ∧
    (∀ iday, iday + 1 < nd →
      ((((List.range n).map (fun k : ℕ => t0 + (k : ℤ) * step)).drop
        (iday * ((24 * 3600 : ℤ) / step).toNat)).take
        ((24 * 3600 : ℤ) / step).toNat).length = ((24 * 3600 : ℤ) / step).toNat) ∧
    ((((List.range n).map (fun k : ℕ => t0 + (k : ℤ) * step)).drop
        ((nd - 1) * ((24 * 3600 : ℤ) / step).toNat)).take
        ((24 * 3600 : ℤ) / step).toNat).length =
      n - (nd - 1) * ((24 * 3600 : ℤ) / step).toNat ∧
    n - (nd - 1) * ((24 * 3600 : ℤ) / step).toNat ≤ ((24 * 3600 : ℤ) / step).toNat := by
  set fpd := ((24 * 3600 : ℤ) / step).toNat with hfpd
  set ts := (List.range n).map (fun k : ℕ => t0 + (k : ℤ) * step) with hts
  have htslen : ts.length = n := by
    rw [hts, List.length_map, List.length_range]
  have hstepOf : stepOf ts = some step := by
    obtain ⟨m, rfl⟩ : ∃ m, n = m + 2 := ⟨n - 2, by omega⟩
    rw [hts, List.range_succ_eq_map, List.range_succ_eq_map]
    simp only [List.map_cons, List.map_map]
    rw [stepOf]
    congr 1
    push_cast
    ring
  have hbuckets : databaseBuckets ts nd =
      some (step, fpd, (List.range nd).map
        (fun iday => (ts.drop (iday * fpd)).take fpd)) := by
    rw [databaseBuckets, hstepOf]
    rfl
  refine ⟨hstepOf, outdirs_length nd dayStart (dayStart + 86400 * nd) (by ring),
    hbuckets, ?_, ?_, ?_⟩
  · intro iday hiday
    rw [List.length_take, List.length_drop, htslen]
    have h1 : (iday + 1) * fpd ≤ (nd - 1) * fpd :=
      Nat.mul_le_mul_right fpd (by omega)
    have h2 : (iday + 1) * fpd = iday * fpd + fpd := by ring
    rw [h2] at h1
    set a := iday * fpd
    set b := (nd - 1) * fpd
    omega
  · rw [List.length_take, List.length_drop, htslen]
    obtain ⟨m, rfl⟩ : ∃ m, nd = m + 1 := ⟨nd - 1, by omega⟩
    have h2 : (m + 1) * fpd = m * fpd + fpd := by ring
    simp only [Nat.add_sub_cancel] at hlow ⊢
    rw [h2] at hhigh
    set a := m * fpd
    omega
  · obtain ⟨m, rfl⟩ : ∃ m, nd = m + 1 := ⟨nd - 1, by omega⟩
    have h2 : (m + 1) * fpd = m * fpd + fpd := by ring
    simp only [Nat.add_sub_cancel] at hlow ⊢
    rw [h2] at hhigh
    set a := m * fpd
    omega

/-- Witness for C8: twelve-hour step (two files per day) and three
files on a two-day span starting at time 0: the first day directory
receives two files and the final (partial) day receives one. -/
theorem C8_database_bucketing_witness :
    stepOf ((List.range 3).map (fun k : ℕ => (0 : ℤ) + (k : ℤ) * 43200)) = some 43200 ∧
    (outdirs 0 (0 + 86400 * 2)).length = 2 ∧
    ((((List.range 3).map (fun k : ℕ => (0 : ℤ) + (k : ℤ) * 43200)).drop
        ((2 - 1) * ((24 * 3600 : ℤ) / 43200).toNat)).take
        ((24 * 3600 : ℤ) / 43200).toNat).length =
      3 - (2 - 1) * ((24 * 3600 : ℤ) / 43200).toNat := by
  have h := C8_database_bucketing 0 43200 3 2 0 (by decide) (by decide)
    (by decide) (by decide) (by decide)
  exact ⟨h.1, h.2.1, h.2.2.2.2.1⟩

/-- C10. The bucketing of `SimOps.database` is only reached under the
unstated precondition that at least two glued files exist: with the
extract and glue sub-steps succeeding but fewer than two glued files,
`databaseDomain` raises an unhandled `IndexError` (from `hdfs[1]`)
instead of returning the step's error status; with two or more files it
reaches the step computation, and a failed extract/glue sub-step
returns the ordinary error status. -/
theorem C10_database_index_error (hdfs : List ℤ) (nd : ℕ) :
    (hdfs.length < 2 →
      databaseDomain true true true hdfs nd = .error .indexError) ∧
    (2 ≤ hdfs.length →
      ∃ x, databaseDomain true true true hdfs nd = .ok (some x)) ∧
    (∀ eHD eWP gl : Bool, ¬(eHD = true ∧ eWP = true ∧ gl = true) →
      databaseDomain eHD eWP gl hdfs nd = .ok none) := by
  refine ⟨?_, ?_, ?_⟩
  · intro hlen
    have hnone : stepOf hdfs = none := by
      match hdfs with
      | [] => rfl
      | [t] => rfl
      | t0 :: t1 :: rest => exact absurd hlen (by simp)
    rw [databaseDomain]
    rw [if_neg (by simp), if_neg (by simp), if_neg (by simp), databaseBuckets, hnone]
    rfl
  · intro hlen
    match hdfs with
    | t0 :: t1 :: rest =>
      refine ⟨(t1 - t0, ((24 * 3600 : ℤ) / (t1 - t0)).toNat,
        (List.range nd).map (fun iday =>
          (((t0 :: t1 :: rest).drop (iday * ((24 * 3600 : ℤ) / (t1 - t0)).toNat)).take
            ((24 * 3600 : ℤ) / (t1 - t0)).toNat))), ?_⟩
      rw [databaseDomain]
      rw [if_neg (by simp), if_neg (by simp), if_neg (by simp), databaseBuckets]
      rfl
  · intro eHD eWP gl hfail
    cases eHD with
    | false => rw [databaseDomain, if_pos rfl]
    | true =>
      cases eWP with
      | false => rw [databaseDomain, if_neg (by simp), if_pos rfl]
      | true =>
        cases gl with
        | false => rw [databaseDomain, if_neg (by simp), if_neg (by simp), if_pos rfl]
        | true => exact absurd ⟨rfl, rfl, rfl⟩ hfail

/-- Witness for C10: a single glued file (the smallest output a
successful glue can produce) makes the bucketing raise `IndexError`;
two files reach the step computation. -/
theorem C10_database_index_error_witness :
    databaseDomain true true true [0] 1 = .error .indexError ∧
    ∃ x, databaseDomain true true true [0, 43200] 1 = .ok (some x) := by
  have h1 := (C10_database_index_error [0] 1).1 (by decide)
  have h2 := (C10_database_index_error [0, 43200] 1).2.1 (by decide)
  exact ⟨h1, h2⟩

/-- Substring test on character lists, Python's `sub in line`. -/
def hasSub (sub : List Char) : List Char → Bool
  | [] => sub.isEmpty
  | c :: rest => sub.isPrefixOf (c :: rest) || hasSub sub rest

/-- The completion phrase `chklog` actually tests.  In Python,
`("Program" and "successfully terminated") in line` first evaluates
`"Program" and "successfully terminated"`, which — both strings being
truthy — is its second operand, so only `"successfully terminated"` is
searched for in each line. -/
def phrase : String := "successfully terminated"

/-- `chklog` of `m_supp_mohid.py`: `open(flog, "r")` — raising an
unhandled `FileNotFoundError` when the log does not exist (`none`) —
then scan the lines until one contains the completion phrase; status 0
when some line does, 1 otherwise. -/
def chklog (flog : Option (List String)) : Except Unit ℕ :=
  match flog with
  | none => .error ()
  | some lines =>
    .ok (if lines.any (fun l => hasSub phrase.toList l.toList) then 0 else 1)

/-- `runsim` of `m_supp_mohid.py`, abstracting the filesystem: whether
the MOHID executable and all its libraries are present (`filesOk`), and
the captured stdout log after the shell invocation (`flog`).  Missing
engine files are status 1 before any run; otherwise the classification
is `chklog` on the log, with `status < 1` success and anything else the
"simulation stopped" failure (status 1). -/
def runsimStatus (filesOk : Bool) (flog : Option (List String)) : Except Unit ℕ :=
  if filesOk = false then .ok 1 else chklog flog

/-- C4 counterexample.  The claim says an absent log yields a `Failed`
stage result and never an unhandled crash; but `chklog` opens the log
unconditionally, so an absent log (`none`) raises an unhandled
`FileNotFoundError` (modelled `.error ()`) instead of returning the
failure status 1. -/
theorem C4_chklog_counterexample :
    chklog none ≠ .ok 1 ∧ chklog none = .error () :=
  ⟨fun h => Except.noConfusion h, rfl⟩

/-- C4 (amended).  The engine invocation is classified `Succeeded`
(status 0) iff the captured log exists and some line contains the fixed
completion phrase; a log lacking the phrase gives status 1 (`Failed`),
as does a missing engine executable or library before any run; an
absent log file, however, raises an unhandled file-not-found error
inside `chklog` rather than returning `Failed`. -/
theorem C4_log_classification (flog : Option (List String)) :
    (runsimStatus true flog = .ok 0 ↔
      ∃ lines, flog = some lines ∧
        lines.any (fun l => hasSub phrase.toList l.toList) = true) ∧
    (∀ lines, flog = some lines →
      lines.any (fun l => hasSub phrase.toList l.toList) = false →
      runsimStatus true flog = .ok 1) ∧
    (flog = none → runsimStatus true flog = .error ()) ∧
    runsimStatus false flog = .ok 1 := by
  have hrs : runsimStatus true flog = chklog flog := by
    rw [runsimStatus, if_neg (by simp)]
  refine ⟨?_, ?_, ?_, ?_⟩
  · rw [hrs]
    constructor
    · intro h
      cases flog with
      | none => exact absurd h (fun hc => Except.noConfusion hc)
      | some lines =>
        refine ⟨lines, rfl, ?_⟩
        rw [chklog] at h
        by_cases hany : lines.any (fun l => hasSub phrase.toList l.toList) = true
        · exact hany
        · rw [if_neg hany] at h
          exact absurd (Except.ok.inj h) (by norm_num)
    · rintro ⟨lines, rfl, hany⟩
      rw [chklog, if_pos hany]
  · rintro lines rfl hany
    rw [hrs, chklog, if_neg (by rw [hany]; simp)]
  · rintro rfl
    rw [hrs]
    rfl
  · rw [runsimStatus, if_pos rfl]

/-- Witness for C4 (amended): a log whose last line reads
"Program MOHIDWater successfully terminated." is classified status 0;
one reading only "running..." is status 1; a missing engine file is
status 1. -/
theorem C4_log_classification_witness :
    runsimStatus true (some ["running...", "Program MOHIDWater successfully terminated."]) =
      .ok 0 ∧
    runsimStatus true (some ["running..."]) = .ok 1 ∧
    runsimStatus false none = .ok 1 := by
  have h1 := (C4_log_classification
    (some ["running...", "Program MOHIDWater successfully terminated."])).1.mpr
    ⟨["running...", "Program MOHIDWater successfully terminated."], rfl, by decide⟩
  have h2 := (C4_log_classification (some ["running..."])).2.1 ["running..."] rfl (by decide)
  have h3 := (C4_log_classification none).2.2.2
  exact ⟨h1, h2, h3⟩

/-- `itefiles` inside `SimOps.continuous`, for one domain: the `*.fin*`
glob of the dated archive subdirectory for that domain; no files is
status 1 (a warning), otherwise every file is copied — renamed to the
zero-index convention — into the domain's `res` directory.  Returns
(status, files copied). -/
def itefiles (files : List ℕ) : ℕ × List ℕ :=
  if files = [] then (1, []) else (0, files)

/-- `itedomains` inside `SimOps.continuous`: iterate the domains
`while instatus == 0`; files copied for the domains already processed
stay on disk even when a later domain fails. -/
def itedomains : List (List ℕ) → ℕ × List ℕ
  | [] => (0, [])
  | fs :: rest =>
    let r := itefiles fs
    if r.1 = 0 then
      let r2 := itedomains rest
      (r2.1, r.2 ++ r2.2)
    else r

/-- The archive-directory loop of `SimOps.continuous`: try each entry
of the `continuous` configuration list `while status == 1`; copies made
during failed attempts persist. -/
def contLoop : List (List (List ℕ)) → ℕ × List ℕ
  | [] => (1, [])
  | d :: ds =>
    let r := itedomains d
    if r.1 = 0 then r
    else
      let r2 := contLoop ds
      (r2.1, r.2 ++ r2.2)

/-- `SimOps.continuous`: `if runid > 1: return 0` — stages after the
first copy nothing; an empty `continuous` configuration is only the
"not a continuous simulation" warning; otherwise each archive directory
is tried until one provides FIN files for every domain, and exhausting
them is the fatal "FIN files not found" error (status 1). -/
def continuousModel (findirs : List (List (List ℕ))) (runid : ℕ) : ℕ × List ℕ :=
  if 1 < runid then (0, [])
  else if findirs = [] then (0, [])
  else contLoop findirs

/-- `SimOps.initials`: when the `initials` policy is off, do nothing;
otherwise glob the monthly initial-condition files for the month of the
stage's start date `self.ini[runid - 1]` — for whichever stage is being
prepared, with no first-stage restriction — and copy them with the
month suffix stripped; an empty glob is the fatal "inital conditions
not found" error.  `monthFiles` maps the stage id to that glob
result. -/
def initialsModel (enabled : Bool) (monthFiles : ℕ → List ℕ) (runid : ℕ) :
    ℕ × List ℕ :=
  if enabled = false then (0, [])
  else if monthFiles runid = [] then (1, [])
  else (0, monthFiles runid)

/-- The sub-step chain of `SimOps.prepsim`: the per-domain
`Nomfich_{runid}.dat` check is fatal before anything else; then
`fbox = (self.continuous, self.initials, self.getforc)` runs while the
status is 0, and the first nonzero status is returned. -/
def prepsimStatus (nomfichOk : Bool) (contSt iniSt forcSt : ℕ) : ℕ :=
  if nomfichOk = false then 1
  else if contSt ≠ 0 then contSt
  else if iniSt ≠ 0 then iniSt
  else forcSt

/-- C6 counterexample.  `SimOps.initials` has no first-stage guard
(unlike `SimOps.continuous`): preparing stage 2 with the `initials`
policy enabled and one matching monthly file copies that file, refuting
the claim that no initial-condition copying is performed for stages
with index greater than 1. -/
theorem C6_initials_counterexample :
    1 < 2 ∧ initialsModel true (fun _ => [7]) 2 = (0, [7]) ∧
    (initialsModel true (fun _ => [7]) 2).2 ≠ [] :=
  ⟨by decide, rfl, by decide⟩

/-- C6 (amended).  Only the prior-run continuation copying
(`SimOps.continuous`) is restricted to the first stage — stages with
index greater than 1 copy nothing there and succeed; the
initial-condition copying (`SimOps.initials`) runs for every stage
where the policy is enabled, copying that stage's month files (fatal
when none exist); and a nonzero status of any preparation sub-step
(missing Nomfich, continuation, initials or forcing) makes `prepsim`
fail, so the engine is never invoked for that stage. -/
theorem C6_first_stage_preparation (findirs : List (List (List ℕ)))
    (monthFiles : ℕ → List ℕ) (ini fin : List ℤ) (run : ℕ → Bool) (post : Bool) :
    (∀ runid, 1 < runid → continuousModel findirs runid = (0, [])) ∧
    (∀ runid, monthFiles runid ≠ [] →
      initialsModel true monthFiles runid = (0, monthFiles runid)) ∧
    (∀ runid, monthFiles runid = [] →
      initialsModel true monthFiles runid = (1, [])) ∧
    (∀ (nomfichOk : Bool) (contSt iniSt forcSt : ℕ),
      (nomfichOk = false ∨ contSt ≠ 0 ∨ iniSt ≠ 0 ∨ forcSt ≠ 0) →
      prepsimStatus nomfichOk contSt iniSt forcSt ≠ 0) ∧
    (∀ (nom : ℕ → Bool) (cont inis forc : ℕ → ℕ) (i : ℕ),
      prepsimStatus (nom i) (cont i) (inis i) (forc i) ≠ 0 →
      Ev.engine i ∉ simManagerTrace (.ok (ini, fin))
        (fun k => prepsimStatus (nom k) (cont k) (inis k) (forc k) == 0)
        run post) := by
  refine ⟨?_, ?_, ?_, ?_, ?_⟩
  · intro runid h
    rw [continuousModel, if_pos h]
  · intro runid h
    rw [initialsModel, if_neg (by simp), if_neg h]
  · intro runid h
    rw [initialsModel, if_neg (by simp), if_pos h]
  · intro nomfichOk contSt iniSt forcSt hfail
    rw [prepsimStatus]
    cases nomfichOk with
    | false => rw [if_pos rfl]; exact one_ne_zero
    | true =>
      rw [if_neg (by simp)]
      by_cases hc : contSt ≠ 0
      · rw [if_pos hc]; exact hc
      · rw [if_neg hc]
        by_cases hi : iniSt ≠ 0
        · rw [if_pos hi]; exact hi
        · rw [if_neg hi]
          rcases hfail with h | h | h | h
          · exact absurd h (by simp)
          · exact absurd h hc
          · exact absurd h hi
          · exact h
  · intro nom cont inis forc i hne hmem
    have hengine : ∀ l : List Ev,
        Ev.engine i ∈ l ++ Ev.retention :: Ev.copyouts ::
          (if post then [Ev.database] else []) → Ev.engine i ∈ l := by
      intro l hl
      rcases List.mem_append.mp hl with h | h
      · exact h
      · rcases List.mem_cons.mp h with h | h
        · exact absurd h (by simp)
        · rcases List.mem_cons.mp h with h | h
          · exact absurd h (by simp)
          · cases post with
            | true => simp at h
            | false => simp at h
    have hstage : Ev.engine i ∈ (stagesTrace
        (fun k => prepsimStatus (nom k) (cont k) (inis k) (forc k) == 0)
        run 1 ini.length).1 := by
      rw [simManagerTrace] at hmem
      by_cases hok : (stagesTrace
          (fun k => prepsimStatus (nom k) (cont k) (inis k) (forc k) == 0)
          run 1 ini.length).2 = false
      · simpa [hok] using hmem
      · rw [if_neg hok] at hmem
        exact hengine _ hmem
    have := (stagesTrace_engine_mem hstage).2.2.1
    rw [Nat.beq_eq_true_eq] at this
    exact hne this

/-- Witness for C6 (amended): preparing stage 2 of a continuous plan
copies no FIN files; a stage-3 `initials` copy happens with the month
file present; a stage whose Nomfich is missing never reaches the
engine. -/
theorem C6_first_stage_preparation_witness :
    continuousModel [[[1]]] 2 = (0, []) ∧
    initialsModel true (fun r => [r]) 3 = (0, [3]) ∧
    Ev.engine 1 ∉ simManagerTrace (.ok ([0], [86400]))
      (fun k => prepsimStatus false 0 0 0 == 0) (fun _ => true) true := by
  have h := C6_first_stage_preparation [[[1]]] (fun r => [r]) [0] [86400]
    (fun _ => true) true
  exact ⟨h.1 2 (by decide), h.2.1 3 (by decide),
    h.2.2.2.2 (fun _ => false) (fun _ => 0) (fun _ => 0) (fun _ => 0) 1
      (by decide)⟩

end SMSCoastal
